import Mathlib

/-!
Verification of the spatial-annotation extraction engine of perceptron-rs
(src/pointing.rs).  The engine scans model-output text for pseudo-XML tags
(point, point_box, polygon, collection), parses integer coordinate pairs and
an optional mention attribute, flattens collection blocks with mention
inheritance, and assembles the result into a Pointing value.

The Rust code matches tags with the regex  (?i)<name([^>]*)>([\s\S]*?)</name>
(case-insensitive name, attribute capture up to the first unquoted >, lazy
body capture ending at the nearest close tag), coordinates with
\(\s*(\d+)\s*,\s*(\d+)\s*\)   and mentions with  mention="([^"]*)" .
Those regexes are embedded below as hand-written scanners over List Char
with exactly the same external behaviour; text is modelled as List Char.
-/

namespace PointingSpec

abbrev Str := List Char

/-- ASCII lower casing, the case folding relevant to the tag-name letters
used by the engine (the tag names contain no letter whose Unicode simple
folding goes beyond ASCII). -/
def asciiLower (c : Char) : Char :=
  if 'A' ≤ c && c ≤ 'Z' then Char.ofNat (c.toNat + 32) else c

/-- Case-insensitive character comparison used for tag names. -/
def eqCI (a b : Char) : Bool := asciiLower a == asciiLower b

/-- Case-sensitive character comparison (the mention regex has no (?i)). -/
def eqCS (a b : Char) : Bool := a == b

/-- Does pat match a prefix of s, comparing characters with f? -/
def startsWithBy (f : Char → Char → Bool) : Str → Str → Bool
  | [], _ => true
  | _ :: _, [] => false
  | p :: ps, c :: cs => f p c && startsWithBy f ps cs

/-- Full charwise comparison of two strings by f. -/
def eqByF (f : Char → Char → Bool) : Str → Str → Bool
  | [], [] => true
  | p :: ps, c :: cs => f p c && eqByF f ps cs
  | _, _ => false

/-- Split s at the first occurrence of the character c, dropping c itself:
the behaviour of the regex fragment ([^>]*)> on a capture followed by a
literal character. -/
def splitAtChar (c : Char) : Str → Option (Str × Str)
  | [] => none
  | x :: xs =>
    if x = c then some ([], xs)
    else (splitAtChar c xs).map (fun p => (x :: p.1, p.2))

/-- Split s at the first position where pat matches charwise by f, returning
the text before the match and the text after it: the behaviour of a lazy
capture ([\s\S]*?) followed by a literal pattern. -/
def splitAtSubBy (f : Char → Char → Bool) (pat : Str) : Str → Option (Str × Str)
  | [] => if pat.isEmpty then some ([], []) else none
  | c :: cs =>
    if startsWithBy f pat (c :: cs) then some ([], (c :: cs).drop pat.length)
    else (splitAtSubBy f pat cs).map (fun p => (c :: p.1, p.2))

/-- The literal close tag of a tag name. -/
def closeTagOf (name : Str) : Str := '<' :: '/' :: (name ++ ['>'])

/-- Match the tag regex (?i)<name([^>]*)>([\s\S]*?)</name> at the start of s.
Returns the attribute capture, the body capture and the text after the
match.  The attribute capture runs to the first subsequent >, the body
capture to the nearest subsequent close tag of the same name, both exactly
as the greedy [^>]* and the lazy [\s\S]*? behave. -/
def matchTag (name : Str) (s : Str) : Option (Str × Str × Str) :=
  match s with
  | [] => none
  | c :: r =>
    if c = '<' then
      if startsWithBy eqCI name r then
        match splitAtChar '>' (r.drop name.length) with
        | some (attrs, afterGt) =>
          match splitAtSubBy eqCI (closeTagOf name) afterGt with
          | some (body, rest) => some (attrs, body, rest)
          | none => none
        | none => none
      else none
    else none

/-- One left-to-right pass of the scanner: the list of non-overlapping
leftmost matches (attribute capture, body capture) together with the text
outside the matches, i.e. the residual text of replace_all with the empty
replacement.  The fuel argument only bounds the recursion; scanning a text
with fuel at least its length never exhausts it. -/
def scanAux (name : Str) : Nat → Str → List (Str × Str) × Str
  | 0, s => ([], s)
  | Nat.succ fuel, s =>
    match s with
    | [] => ([], [])
    | c :: cs =>
      match matchTag name (c :: cs) with
      | some (a, b, rest) =>
        let r := scanAux name fuel rest
        ((a, b) :: r.1, r.2)
      | none =>
        let r := scanAux name fuel cs
        (r.1, c :: r.2)

/-- All matches of the tag regex plus the residual text (Regex::replace_all
with the empty string, also recording each match's captures). -/
def scanTagsR (name : Str) (s : Str) : List (Str × Str) × Str :=
  scanAux name s.length s

/-- All matches of the tag regex (Regex::captures_iter). -/
def scanTags (name : Str) (s : Str) : List (Str × Str) :=
  (scanTagsR name s).1

/-- Unicode white space, the class matched by the regex escape for spaces. -/
def isWS (c : Char) : Bool :=
  let n := c.toNat
  (9 ≤ n && n ≤ 13) || n == 32 || n == 133 || n == 160 || n == 5760 ||
  (8192 ≤ n && n ≤ 8202) || n == 8232 || n == 8233 || n == 8239 ||
  n == 8287 || n == 12288

/-- ASCII decimal digit.  The coordinate regex digit class is Unicode, but a
digit run containing a non-ASCII digit never parses as u32 and such a run
can hide no other coordinate pair (the pattern contains no second opening
parenthesis), so restricting the scanner to ASCII digits leaves parse_coords
unchanged on every input. -/
def isDigitA (c : Char) : Bool := 48 ≤ c.toNat && c.toNat ≤ 57

/-- Match the coordinate regex at the start of s, returning the two captured
digit runs and the text after the match. -/
def matchCoord (s : Str) : Option ((Str × Str) × Str) :=
  match s with
  | [] => none
  | c :: r =>
    if c = '(' then
      let r1 := r.dropWhile isWS
      let d1 := r1.takeWhile isDigitA
      if d1.isEmpty then none
      else
        let r2 := (r1.dropWhile isDigitA).dropWhile isWS
        match r2 with
        | c2 :: r3 =>
          if c2 = ',' then
            let r4 := r3.dropWhile isWS
            let d2 := r4.takeWhile isDigitA
            if d2.isEmpty then none
            else
              let r5 := (r4.dropWhile isDigitA).dropWhile isWS
              match r5 with
              | c5 :: r6 => if c5 = ')' then some ((d1, d2), r6) else none
              | [] => none
          else none
        | [] => none
    else none

/-- Left-to-right scan for coordinate pairs (captures_iter on the
coordinate regex), fuel-bounded like scanAux. -/
def scanCoordsAux : Nat → Str → List (Str × Str)
  | 0, _ => []
  | Nat.succ fuel, s =>
    match s with
    | [] => []
    | c :: cs =>
      match matchCoord (c :: cs) with
      | some (p, rest) => p :: scanCoordsAux fuel rest
      | none => scanCoordsAux fuel cs

/-- All coordinate-pair matches of a body, in source order. -/
def scanCoords (s : Str) : List (Str × Str) :=
  scanCoordsAux s.length s

/-- Numeric value of an ASCII digit run. -/
def digitsVal (ds : Str) : Nat :=
  ds.foldl (fun a c => 10 * a + (c.toNat - 48)) 0

/-- Rust str::parse::<u32> on a captured digit run: the value when it is
representable in 32 bits, failure otherwise. -/
def u32ofDigits (ds : Str) : Option Nat :=
  if digitsVal ds < 4294967296 then some (digitsVal ds) else none

/-- parse_coords: every coordinate-pair match of the body, each kept only
when both components parse as u32 (filter_map with the question-mark
operator on parse::<u32>). -/
def parse_coords (body : Str) : List (Nat × Nat) :=
  (scanCoords body).filterMap (fun p =>
    (u32ofDigits p.1).bind (fun x => (u32ofDigits p.2).map (fun y => (x, y))))

/-- The literal text of the mention attribute opener. -/
def mentionLit : Str := ['m', 'e', 'n', 't', 'i', 'o', 'n', '=', '"']

/-- parse_mention: the regex mention="([^"]*)" applied with captures, i.e.
the value between the quotes of the leftmost mention attribute, if any.
When the first occurrence of the opener has no closing quote after it the
whole text has no quote after that point, so no later occurrence can match
either and the regex returns no capture, exactly as modelled here. -/
def parse_mention (attrs : Str) : Option Str :=
  match splitAtSubBy eqCS mentionLit attrs with
  | some (_, afterOpen) =>
    match splitAtChar '"' afterOpen with
    | some (v, _) => some v
    | none => none
  | none => none

/-- Output format for model responses (types.rs). -/
inductive OutputFormat : Type where
  | Text
  | Point
  | Box
  | Polygon
  deriving DecidableEq

/-- A point annotation from the model (types.rs). -/
structure Point where
  x : Nat
  y : Nat
  mention : Option Str
  deriving DecidableEq

/-- A bounding box annotation from the model (types.rs). -/
structure BoundingBox where
  x1 : Nat
  y1 : Nat
  x2 : Nat
  y2 : Nat
  mention : Option Str
  deriving DecidableEq

/-- A polygon annotation from the model (types.rs). -/
structure Polygon where
  hull : List (Nat × Nat)
  mention : Option Str
  deriving DecidableEq

/-- Pointing data extracted from model output, exactly one spatial type
(types.rs). -/
inductive Pointing : Type where
  | Points (points : List Point)
  | Boxes (boxes : List BoundingBox)
  | Polygons (polygons : List Polygon)
  deriving DecidableEq

/-- Tag name bound to the point regex. -/
def pointTag : Str := ['p', 'o', 'i', 'n', 't']

/-- Tag name bound to the point_box regex. -/
def boxTag : Str := ['p', 'o', 'i', 'n', 't', '_', 'b', 'o', 'x']

/-- Tag name bound to the polygon regex. -/
def polygonTag : Str := ['p', 'o', 'l', 'y', 'g', 'o', 'n']

/-- Tag name bound to the collection regex. -/
def collectionTag : Str := ['c', 'o', 'l', 'l', 'e', 'c', 't', 'i', 'o', 'n']

/-- parse_point: first coordinate if any (coords.first().map(...)). -/
def parse_point (coords : List (Nat × Nat)) (mention : Option Str) : Option Point :=
  coords.head?.map (fun c => { x := c.1, y := c.2, mention := mention })

/-- parse_box: requires at least two coordinates and uses the first two in
order; the source checks coords.len() >= 2 and then indexes 0 and 1, which
is exactly this shape match. -/
def parse_box (coords : List (Nat × Nat)) (mention : Option Str) : Option BoundingBox :=
  match coords with
  | c1 :: c2 :: _ =>
    some { x1 := c1.1, y1 := c1.2, x2 := c2.1, y2 := c2.2, mention := mention }
  | _ => none

/-- parse_polygon: requires at least three coordinates and uses them all,
in order, as the hull. -/
def parse_polygon (coords : List (Nat × Nat)) (mention : Option Str) : Option Polygon :=
  if 3 ≤ coords.length then some { hull := coords, mention := mention } else none

/-- results.push(item) inside an if-let: append when the parse succeeded. -/
def pushItem {T : Type} (acc : List T) (o : Option T) : List T :=
  match o with
  | some item => acc ++ [item]
  | none => acc

/-- extract_items: first the collection pass (replace_all on the collection
regex, whose callback scans each collection body for the target tag,
resolves the child mention with child.or(parent) and pushes the items built
by parse_fn, the match itself being replaced by empty text), then the
standalone pass over the residual text. -/
def extract_items {T : Type} (text : Str) (name : Str)
    (parse_fn : List (Nat × Nat) → Option Str → Option T) : List T :=
  let pass := scanTagsR collectionTag text
  let collected := pass.1.foldl (fun acc pm =>
    (scanTags name pm.2).foldl (fun acc2 cm =>
      pushItem acc2 (parse_fn (parse_coords cm.2)
        ((parse_mention cm.1).or (parse_mention pm.1)))) acc) []
  (scanTags name pass.2).foldl (fun acc cm =>
    pushItem acc (parse_fn (parse_coords cm.2) (parse_mention cm.1))) collected

/-- extract: dispatch on the output format; Text short-circuits to nothing,
the other kinds run extract_items with their tag and constructor and wrap a
non-empty result in the kind's variant. -/
def extract (text : Str) (format : OutputFormat) : Option Pointing :=
  match format with
  | .Point =>
    let points := extract_items text pointTag parse_point
    if points.isEmpty then none else some (.Points points)
  | .Box =>
    let boxes := extract_items text boxTag parse_box
    if boxes.isEmpty then none else some (.Boxes boxes)
  | .Polygon =>
    let polygons := extract_items text polygonTag parse_polygon
    if polygons.isEmpty then none else some (.Polygons polygons)
  | .Text => none

/-- The items contributed by the collection pass, written directly as the
per-collection, per-child list of successfully constructed annotations in
source order. -/
def collectionItems {T : Type} (text : Str) (name : Str)
    (parse_fn : List (Nat × Nat) → Option Str → Option T) : List T :=
  ((scanTagsR collectionTag text).1.map (fun pm =>
    (scanTags name pm.2).filterMap (fun cm =>
      parse_fn (parse_coords cm.2)
        ((parse_mention cm.1).or (parse_mention pm.1))))).flatten

/-- The items contributed by the standalone pass over the residual text,
in source order. -/
def standaloneItems {T : Type} (text : Str) (name : Str)
    (parse_fn : List (Nat × Nat) → Option Str → Option T) : List T :=
  (scanTags name (scanTagsR collectionTag text).2).filterMap (fun cm =>
    parse_fn (parse_coords cm.2) (parse_mention cm.1))

/-- Length of the list carried by a Pointing value. -/
def pointingSize : Pointing → Nat
  | .Points l => l.length
  | .Boxes l => l.length
  | .Polygons l => l.length

/-- Number of annotations the extraction pipeline yields for a format
(zero for Text, which runs no extraction). -/
def extractedSize (text : Str) : OutputFormat → Nat
  | .Text => 0
  | .Point => (extract_items text pointTag parse_point).length
  | .Box => (extract_items text boxTag parse_box).length
  | .Polygon => (extract_items text polygonTag parse_polygon).length

/-- A full tag literal: open bracket, tag-name spelling, attribute text,
closing bracket of the open tag, body, then tail (normally the close tag
followed by whatever comes next). -/
def mkTag (openLit attrs body tail : Str) : Str :=
  '<' :: (openLit ++ (attrs ++ '>' :: (body ++ tail)))

/-- Interleave (pre, span) pieces and a final tail back into one text. -/
def spanJoin : List (Str × Str) → Str → Str
  | [], tail => tail
  | p :: ps, tail => p.1 ++ (p.2 ++ spanJoin ps tail)

/-- Body used by the mention-inheritance template: one child point tag with
its own mention m1, then one child point tag with no mention attribute. -/
def colDemoBody (m1 : Str) : Str :=
  mkTag pointTag ((' ' :: mentionLit) ++ (m1 ++ '"' :: ([] : Str)))
    [' ', '(', '1', ',', '2', ')', ' '] (closeTagOf pointTag) ++
  mkTag pointTag [] [' ', '(', '3', ',', '4', ')', ' '] (closeTagOf pointTag)

/-- A collection tag with mention mp whose body is colDemoBody m1. -/
def colDemo (mp m1 : Str) : Str :=
  mkTag collectionTag ((' ' :: mentionLit) ++ (mp ++ '"' :: ([] : Str)))
    (colDemoBody m1) (closeTagOf collectionTag)

/-- A coordinate-pair literal: parenthesis, white space, digit run, white
space, comma, white space, digit run, white space, parenthesis. -/
def coordLit (w1 d1 w2 w3 d2 w4 : Str) : Str :=
  '(' :: (w1 ++ (d1 ++ (w2 ++ ',' :: (w3 ++ (d2 ++ (w4 ++ [')']))))))

/-- The panic sites of the extraction path: the unreachable branch of
item_regex for the Text format, and slice indexing. -/
inductive PanicKind : Type where
  | unreachableBranch
  | indexOutOfBounds
  deriving DecidableEq

/-- item_regex: the compiled regex (here, the tag name it was built from)
for the target tag type; the Text arm is unreachable entered as a panic. -/
def item_tag : OutputFormat → Except PanicKind Str
  | .Point => .ok pointTag
  | .Box => .ok boxTag
  | .Polygon => .ok polygonTag
  | .Text => .error .unreachableBranch

/-- Slice indexing, panicking when out of bounds. -/
def listIdx {A : Type} (l : List A) (i : Nat) : Except PanicKind A :=
  match l.get? i with
  | some a => .ok a
  | none => .error .indexOutOfBounds

/-- parse_point with its panic behaviour made explicit: first() is a total
Option operation, so it cannot panic. -/
def parse_pointE (coords : List (Nat × Nat)) (mention : Option Str) :
    Except PanicKind (Option Point) :=
  .ok (parse_point coords mention)

/-- parse_box with its panic behaviour made explicit: the source checks
coords.len() >= 2 and then indexes positions 0 and 1 of the slice. -/
def parse_boxE (coords : List (Nat × Nat)) (mention : Option Str) :
    Except PanicKind (Option BoundingBox) :=
  if 2 ≤ coords.length then do
    let c1 ← listIdx coords 0
    let c2 ← listIdx coords 1
    .ok (some { x1 := c1.1, y1 := c1.2, x2 := c2.1, y2 := c2.2, mention := mention })
  else .ok none

/-- parse_polygon with its panic behaviour made explicit: to_vec cannot
panic. -/
def parse_polygonE (coords : List (Nat × Nat)) (mention : Option Str) :
    Except PanicKind (Option Polygon) :=
  .ok (parse_polygon coords mention)

/-- extract_items with the panic behaviour of the item constructor threaded
through both passes. -/
def extract_itemsE {T : Type} (text : Str) (name : Str)
    (parse_fn : List (Nat × Nat) → Option Str → Except PanicKind (Option T)) :
    Except PanicKind (List T) := do
  let pass := scanTagsR collectionTag text
  let collected ← pass.1.foldlM (fun acc pm =>
    (scanTags name pm.2).foldlM (fun acc2 cm => do
      let o ← parse_fn (parse_coords cm.2)
        ((parse_mention cm.1).or (parse_mention pm.1))
      pure (pushItem acc2 o)) acc) []
  (scanTags name pass.2).foldlM (fun acc cm => do
    let o ← parse_fn (parse_coords cm.2) (parse_mention cm.1)
    pure (pushItem acc o)) collected

/-- extract with every potential panic of its path surfaced as an error:
each non-Text arm calls item_regex on the format it matched (never Text),
and the Text arm answers nothing without consulting item_regex. -/
def extractE (text : Str) (format : OutputFormat) :
    Except PanicKind (Option Pointing) :=
  match format with
  | .Point => do
    let name ← item_tag .Point
    let points ← extract_itemsE text name parse_pointE
    .ok (if points.isEmpty then none else some (.Points points))
  | .Box => do
    let name ← item_tag .Box
    let boxes ← extract_itemsE text name parse_boxE
    .ok (if boxes.isEmpty then none else some (.Boxes boxes))
  | .Polygon => do
    let name ← item_tag .Polygon
    let polygons ← extract_itemsE text name parse_polygonE
    .ok (if polygons.isEmpty then none else some (.Polygons polygons))
  | .Text => .ok none

/-! Basic properties of the character-level scanners. -/

theorem startsWithBy_length {f : Char → Char → Bool} :
    ∀ {pat s : Str}, startsWithBy f pat s = true → pat.length ≤ s.length := by
  intro pat
  induction pat with
  | nil => intro s _; simp
  | cons p ps ih =>
    intro s h
    cases s with
    | nil => simp [startsWithBy] at h
    | cons c cs =>
      simp only [startsWithBy, Bool.and_eq_true] at h
      simpa using Nat.succ_le_succ (ih h.2)

theorem startsWithBy_append {f : Char → Char → Bool} :
    ∀ {pat s : Str} (t : Str), startsWithBy f pat s = true →
      startsWithBy f pat (s ++ t) = true := by
  intro pat
  induction pat with
  | nil => intro s t _; simp [startsWithBy]
  | cons p ps ih =>
    intro s t h
    cases s with
    | nil => simp [startsWithBy] at h
    | cons c cs =>
      simp only [startsWithBy, Bool.and_eq_true] at h
      simpa [startsWithBy, h.1] using ih t h.2

theorem startsWithBy_take {f : Char → Char → Bool} :
    ∀ {pat s : Str} (t : Str), startsWithBy f pat s = true →
      startsWithBy f pat (s.take pat.length ++ t) = true := by
  intro pat
  induction pat with
  | nil => intro s t _; simp [startsWithBy]
  | cons p ps ih =>
    intro s t h
    cases s with
    | nil => simp [startsWithBy] at h
    | cons c cs =>
      simp only [startsWithBy, Bool.and_eq_true] at h
      simpa [startsWithBy, List.take, h.1] using ih t h.2

theorem eqByF_length {f : Char → Char → Bool} :
    ∀ {a b : Str}, eqByF f a b = true → a.length = b.length := by
  intro a
  induction a with
  | nil => intro b h; cases b with
    | nil => rfl
    | cons c cs => simp [eqByF] at h
  | cons p ps ih =>
    intro b h
    cases b with
    | nil => simp [eqByF] at h
    | cons c cs =>
      simp only [eqByF, Bool.and_eq_true] at h
      simpa using ih h.2

theorem eqByF_startsWith {f : Char → Char → Bool} :
    ∀ {a b : Str} (t : Str), eqByF f a b = true →
      startsWithBy f a (b ++ t) = true := by
  intro a
  induction a with
  | nil => intro b t _; simp [startsWithBy]
  | cons p ps ih =>
    intro b t h
    cases b with
    | nil => simp [eqByF] at h
    | cons c cs =>
      simp only [eqByF, Bool.and_eq_true] at h
      simpa [startsWithBy, h.1] using ih t h.2

theorem splitAtChar_eq_some {c : Char} :
    ∀ {s a b : Str}, splitAtChar c s = some (a, b) → s = a ++ c :: b ∧ c ∉ a := by
  intro s
  induction s with
  | nil => intro a b h; simp [splitAtChar] at h
  | cons x xs ih =>
    intro a b h
    simp only [splitAtChar] at h
    split at h
    · rename_i hx
      subst hx
      simp only [Option.some_inj, Prod.mk.injEq] at h
      obtain ⟨rfl, rfl⟩ := h
      simp
    · rename_i hx
      cases hp : splitAtChar c xs with
      | none => rw [hp] at h; simp at h
      | some p =>
        obtain ⟨a', b'⟩ := p
        rw [hp] at h
        simp only [Option.map_some', Option.some_inj, Prod.mk.injEq] at h
        obtain ⟨rfl, rfl⟩ := h
        obtain ⟨h1, h2⟩ := ih hp
        refine ⟨by simp [h1], ?_⟩
        simp only [List.mem_cons, not_or]
        exact ⟨fun hcx => hx hcx.symm, h2⟩

theorem splitAtChar_append {c : Char} :
    ∀ {a : Str} (b : Str), c ∉ a → splitAtChar c (a ++ c :: b) = some (a, b) := by
  intro a
  induction a with
  | nil => intro b _; simp [splitAtChar]
  | cons x xs ih =>
    intro b h
    simp only [List.mem_cons, not_or] at h
    have hx : ¬x = c := fun hxc => h.1 hxc.symm
    simp [splitAtChar, hx, ih b h.2]

theorem splitAtChar_length {c : Char} {s a b : Str}
    (h : splitAtChar c s = some (a, b)) : b.length < s.length := by
  obtain ⟨h1, _⟩ := splitAtChar_eq_some h
  subst h1
  simp
  omega

theorem splitAtSubBy_length {f : Char → Char → Bool} {pat : Str} :
    ∀ {s a b : Str}, splitAtSubBy f pat s = some (a, b) → b.length ≤ s.length := by
  intro s
  induction s with
  | nil =>
    intro a b h
    simp only [splitAtSubBy] at h
    split at h
    · simp only [Option.some_inj, Prod.mk.injEq] at h
      obtain ⟨rfl, rfl⟩ := h
      simp
    · simp at h
  | cons x xs ih =>
    intro a b h
    simp only [splitAtSubBy] at h
    split at h
    · simp only [Option.some_inj, Prod.mk.injEq] at h
      obtain ⟨rfl, rfl⟩ := h
      simp only [List.length_drop]
      omega
    · cases hp : splitAtSubBy f pat xs with
      | none => rw [hp] at h; simp at h
      | some p =>
        obtain ⟨a', b'⟩ := p
        rw [hp] at h
        simp only [Option.map_some', Option.some_inj, Prod.mk.injEq] at h
        obtain ⟨rfl, rfl⟩ := h
        exact Nat.le_trans (ih hp) (by simp)

theorem splitAtSubBy_first {f : Char → Char → Bool} {pat : Str} (hpat : pat ≠ []) :
    ∀ (n : Nat) (s : Str),
      (∀ i, i < n → startsWithBy f pat (s.drop i) = false) →
      startsWithBy f pat (s.drop n) = true →
      splitAtSubBy f pat s = some (s.take n, s.drop (n + pat.length)) := by
  intro n
  induction n with
  | zero =>
    intro s _ hat
    cases s with
    | nil =>
      cases pat with
      | nil => exact absurd rfl hpat
      | cons p ps => simp [startsWithBy] at hat
    | cons c cs =>
      simp only [List.drop_zero] at hat
      simp [splitAtSubBy, hat, Nat.zero_add]
  | succ n ih =>
    intro s hlt hat
    cases s with
    | nil =>
      cases pat with
      | nil => exact absurd rfl hpat
      | cons p ps => simp [startsWithBy] at hat
    | cons c cs =>
      have h0 : startsWithBy f pat (c :: cs) = false := by
        simpa using hlt 0 (Nat.succ_pos n)
      have hlt' : ∀ i, i < n → startsWithBy f pat (cs.drop i) = false := by
        intro i hi
        simpa using hlt (i + 1) (Nat.succ_lt_succ hi)
      have hat' : startsWithBy f pat (cs.drop n) = true := by
        simpa using hat
      simp [splitAtSubBy, h0, ih cs hlt' hat', Nat.succ_add]

theorem splitAtSubBy_sound {f : Char → Char → Bool} {pat : Str} :
    ∀ {s a b : Str}, splitAtSubBy f pat s = some (a, b) →
      s = a ++ ((s.drop a.length).take pat.length ++ b) ∧
      startsWithBy f pat (s.drop a.length) = true ∧
      (∀ i, i < a.length → startsWithBy f pat (s.drop i) = false) := by
  intro s
  induction s with
  | nil =>
    intro a b h
    simp only [splitAtSubBy] at h
    split at h
    · rename_i hp
      simp only [Option.some_inj, Prod.mk.injEq] at h
      obtain ⟨rfl, rfl⟩ := h
      have hpat : pat = [] := by simpa using hp
      subst hpat
      exact ⟨by simp, rfl, by simp⟩
    · simp at h
  | cons x xs ih =>
    intro a b h
    simp only [splitAtSubBy] at h
    split at h
    · rename_i hsw
      simp only [Option.some_inj, Prod.mk.injEq] at h
      obtain ⟨rfl, rfl⟩ := h
      exact ⟨by simp, by simpa using hsw, by simp⟩
    · rename_i hsw
      cases hp : splitAtSubBy f pat xs with
      | none => rw [hp] at h; simp at h
      | some p =>
        obtain ⟨a', b'⟩ := p
        rw [hp] at h
        simp only [Option.map_some', Option.some_inj, Prod.mk.injEq] at h
        obtain ⟨rfl, rfl⟩ := h
        obtain ⟨h1, h2, h3⟩ := ih hp
        refine ⟨?_, by simpa using h2, ?_⟩
        · conv_lhs => rw [h1]
          simp
        · intro i hi
          cases i with
          | zero => simpa using hsw
          | succ j =>
            simp only [List.length_cons] at hi
            simpa using h3 j (Nat.lt_of_succ_lt_succ hi)

theorem matchTag_length {name : Str} :
    ∀ {s : Str} {a b rest : Str}, matchTag name s = some (a, b, rest) →
      rest.length < s.length := by
  intro s a b rest h
  cases s with
  | nil => simp [matchTag] at h
  | cons c r =>
    simp only [matchTag] at h
    split at h
    · split at h
      · cases h1 : splitAtChar '>' (r.drop name.length) with
        | none => rw [h1] at h; simp at h
        | some p1 =>
          obtain ⟨attrs, afterGt⟩ := p1
          rw [h1] at h
          simp only at h
          cases h2 : splitAtSubBy eqCI (closeTagOf name) afterGt with
          | none => rw [h2] at h; simp at h
          | some p2 =>
            obtain ⟨body, rest'⟩ := p2
            rw [h2] at h
            simp only [Option.some_inj, Prod.mk.injEq] at h
            obtain ⟨rfl, rfl, rfl⟩ := h
            have l1 : afterGt.length < (r.drop name.length).length :=
              splitAtChar_length h1
            have l2 : rest'.length ≤ afterGt.length := splitAtSubBy_length h2
            have l3 : (r.drop name.length).length ≤ r.length := by
              simp [List.length_drop]
            simp only [List.length_cons]
            omega
      · simp at h
    · simp at h

theorem scanAux_fuel {name : Str} :
    ∀ (fa : Nat) (fb : Nat) (s : Str), s.length ≤ fa → s.length ≤ fb →
      scanAux name fa s = scanAux name fb s := by
  intro fa
  induction fa with
  | zero =>
    intro fb s ha _
    have : s = [] := List.eq_nil_of_length_eq_zero (Nat.le_zero.mp ha)
    subst this
    cases fb <;> simp [scanAux]
  | succ n ih =>
    intro fb s ha hb
    cases s with
    | nil => cases fb <;> simp [scanAux]
    | cons c cs =>
      cases fb with
      | zero => simp at hb
      | succ m =>
        simp only [scanAux]
        cases hm : matchTag name (c :: cs) with
        | some t =>
          obtain ⟨a, b, rest⟩ := t
          have hr := matchTag_length hm
          simp only [List.length_cons] at ha hb hr
          simp only
          rw [ih m rest (by omega) (by omega)]
        | none =>
          simp only [List.length_cons] at ha hb
          simp only
          rw [ih m cs (by omega) (by omega)]

theorem scanTagsR_nil {name : Str} : scanTagsR name [] = ([], []) := rfl

theorem scanTagsR_match {name s a b rest : Str}
    (h : matchTag name s = some (a, b, rest)) :
    scanTagsR name s = ((a, b) :: (scanTagsR name rest).1, (scanTagsR name rest).2) := by
  cases s with
  | nil => simp [matchTag] at h
  | cons c cs =>
    have hr := matchTag_length h
    simp only [List.length_cons] at hr
    show scanAux name (c :: cs).length (c :: cs) = _
    simp only [List.length_cons, scanAux, h]
    rw [scanAux_fuel cs.length (List.length rest) rest (by omega) (Nat.le_refl _)]
    rfl

theorem scanTagsR_skip {name : Str} {c : Char} {cs : Str}
    (h : matchTag name (c :: cs) = none) :
    scanTagsR name (c :: cs) = ((scanTagsR name cs).1, c :: (scanTagsR name cs).2) := by
  show scanAux name (c :: cs).length (c :: cs) = _
  simp only [List.length_cons, scanAux, h]
  rfl

theorem matchTag_mk {name openLit attrs body closeLit rest : Str}
    (hopen : eqByF eqCI name openLit = true)
    (hattrs : '>' ∉ attrs)
    (hclose : eqByF eqCI (closeTagOf name) closeLit = true)
    (hearly : ∀ i, i < body.length →
      startsWithBy eqCI (closeTagOf name) ((body ++ (closeLit ++ rest)).drop i) = false) :
    matchTag name (mkTag openLit attrs body (closeLit ++ rest)) = some (attrs, body, rest) := by
  have hlen : name.length = openLit.length := eqByF_length hopen
  have hco : closeTagOf name ≠ [] := by simp [closeTagOf]
  have hsw : startsWithBy eqCI name
      (openLit ++ (attrs ++ '>' :: (body ++ (closeLit ++ rest)))) = true :=
    eqByF_startsWith _ hopen
  have hdrop : (openLit ++ (attrs ++ '>' :: (body ++ (closeLit ++ rest)))).drop name.length =
      attrs ++ '>' :: (body ++ (closeLit ++ rest)) := by
    rw [hlen]
    exact List.drop_left _ _
  have hchar : splitAtChar '>' (attrs ++ '>' :: (body ++ (closeLit ++ rest))) =
      some (attrs, body ++ (closeLit ++ rest)) :=
    splitAtChar_append _ hattrs
  have hat : startsWithBy eqCI (closeTagOf name)
      ((body ++ (closeLit ++ rest)).drop body.length) = true := by
    rw [List.drop_left]
    exact eqByF_startsWith _ hclose
  have hsub : splitAtSubBy eqCI (closeTagOf name) (body ++ (closeLit ++ rest)) =
      some (body, rest) := by
    rw [splitAtSubBy_first hco body.length _ hearly hat]
    have ht : (body ++ (closeLit ++ rest)).take body.length = body := List.take_left _ _
    have hd : (body ++ (closeLit ++ rest)).drop (body.length + (closeTagOf name).length) =
        rest := by
      rw [eqByF_length hclose, ← List.append_assoc]
      exact List.drop_left' (by simp)
    rw [ht, hd]
  unfold mkTag
  simp [matchTag, hsw, hdrop, hchar, hsub]

theorem foldl_pushItem {A T : Type} (g : A → Option T) :
    ∀ (l : List A) (acc : List T),
      l.foldl (fun a x => pushItem a (g x)) acc = acc ++ l.filterMap g := by
  intro l
  induction l with
  | nil => intro acc; simp
  | cons x xs ih =>
    intro acc
    rw [List.foldl_cons]
    cases hx : g x with
    | none =>
      show List.foldl (fun a y => pushItem a (g y)) acc xs =
        acc ++ List.filterMap g (x :: xs)
      rw [ih, List.filterMap_cons_none hx]
    | some i =>
      show List.foldl (fun a y => pushItem a (g y)) (acc ++ [i]) xs =
        acc ++ List.filterMap g (x :: xs)
      rw [ih, List.filterMap_cons_some hx]
      simp

theorem foldl_collect {A T : Type} (F : A → List T) (step : List T → A → List T)
    (hstep : ∀ acc a, step acc a = acc ++ F a) :
    ∀ (l : List A) (acc : List T), l.foldl step acc = acc ++ (l.map F).flatten := by
  intro l
  induction l with
  | nil => intro acc; simp
  | cons x xs ih =>
    intro acc
    simp only [List.foldl_cons, hstep, List.map_cons, List.flatten_cons, ih]
    simp

theorem extract_items_eq {T : Type} (text name : Str)
    (parse_fn : List (Nat × Nat) → Option Str → Option T) :
    extract_items text name parse_fn =
      collectionItems text name parse_fn ++ standaloneItems text name parse_fn := by
  unfold extract_items collectionItems standaloneItems
  rw [foldl_pushItem]
  have hcol : List.foldl (fun acc pm =>
        (scanTags name pm.2).foldl (fun acc2 cm =>
          pushItem acc2 (parse_fn (parse_coords cm.2)
            ((parse_mention cm.1).or (parse_mention pm.1)))) acc)
        [] (scanTagsR collectionTag text).1 =
      [] ++ ((scanTagsR collectionTag text).1.map (fun pm =>
        (scanTags name pm.2).filterMap (fun cm =>
          parse_fn (parse_coords cm.2)
            ((parse_mention cm.1).or (parse_mention pm.1))))).flatten :=
    foldl_collect _ _ (fun (acc : List T) (pm : Str × Str) =>
      foldl_pushItem (fun cm => parse_fn (parse_coords cm.2)
        ((parse_mention cm.1).or (parse_mention pm.1))) (scanTags name pm.2) acc) _ _
  rw [hcol]
  simp

theorem exBindOk {A B : Type} (a : A) (k : A → Except PanicKind B) :
    ((Except.ok a : Except PanicKind A) >>= k) = k a := rfl

theorem foldlM_okOf {A B : Type} (F : B → A → Except PanicKind B) (f : B → A → B)
    (hF : ∀ b a, F b a = .ok (f b a)) :
    ∀ (l : List A) (init : B), l.foldlM F init = .ok (l.foldl f init) := by
  intro l
  induction l with
  | nil => intro init; rfl
  | cons x xs ih =>
    intro init
    rw [List.foldlM_cons, hF, exBindOk]
    exact ih (f init x)

theorem parse_boxE_ok : ∀ (coords : List (Nat × Nat)) (m : Option Str),
    parse_boxE coords m = .ok (parse_box coords m) := by
  intro coords m
  match coords with
  | [] => rfl
  | [c1] => rfl
  | c1 :: c2 :: r =>
    unfold parse_boxE
    rw [if_pos (by simp)]
    rfl

theorem extract_itemsE_ok {T : Type} (text name : Str)
    (pfE : List (Nat × Nat) → Option Str → Except PanicKind (Option T))
    (pf : List (Nat × Nat) → Option Str → Option T)
    (h : ∀ c m, pfE c m = .ok (pf c m)) :
    extract_itemsE text name pfE = .ok (extract_items text name pf) := by
  unfold extract_itemsE extract_items
  dsimp only
  have hinner : ∀ (pm : Str × Str) (b : List T),
      (scanTags name pm.2).foldlM (fun acc2 cm => do
        let o ← pfE (parse_coords cm.2)
          ((parse_mention cm.1).or (parse_mention pm.1))
        pure (pushItem acc2 o)) b =
      Except.ok ((scanTags name pm.2).foldl (fun acc2 cm =>
        pushItem acc2 (pf (parse_coords cm.2)
          ((parse_mention cm.1).or (parse_mention pm.1)))) b) :=
    fun pm b => foldlM_okOf _ _ (fun b2 cm => by rw [h]; rfl) _ b
  have houter : List.foldlM (fun acc pm =>
        (scanTags name pm.2).foldlM (fun acc2 cm => do
          let o ← pfE (parse_coords cm.2)
            ((parse_mention cm.1).or (parse_mention pm.1))
          pure (pushItem acc2 o)) acc)
      [] (scanTagsR collectionTag text).1 =
      Except.ok (List.foldl (fun acc pm =>
        (scanTags name pm.2).foldl (fun acc2 cm =>
          pushItem acc2 (pf (parse_coords cm.2)
            ((parse_mention cm.1).or (parse_mention pm.1)))) acc)
      [] (scanTagsR collectionTag text).1) :=
    foldlM_okOf _ _ (fun b pm => hinner pm b) _ []
  rw [houter, exBindOk]
  exact foldlM_okOf _ _ (fun b cm => by rw [h]; rfl) _ _

theorem parse_mention_mk {v tail : Str} (hv : '"' ∉ v) :
    parse_mention ((' ' :: mentionLit) ++ (v ++ '"' :: tail)) = some v := by
  have hne : mentionLit ≠ [] := by decide
  have hat : startsWithBy eqCS mentionLit
      ((mentionLit ++ (v ++ '"' :: tail)).drop 0) = true := by
    rw [List.drop_zero]
    exact eqByF_startsWith _ (by decide)
  have h1 : splitAtSubBy eqCS mentionLit (mentionLit ++ (v ++ '"' :: tail)) =
      some ([], v ++ '"' :: tail) := by
    rw [splitAtSubBy_first hne 0 (mentionLit ++ (v ++ '"' :: tail))
      (fun i hi => absurd hi (Nat.not_lt_zero i)) hat]
    rw [List.take_zero, Nat.zero_add, List.drop_left]
  have hms : eqCS 'm' ' ' = false := by decide
  have h0 : startsWithBy eqCS mentionLit
      (' ' :: (mentionLit ++ (v ++ '"' :: tail))) = false := by
    simp [mentionLit, startsWithBy, hms]
  have hsplit : splitAtSubBy eqCS mentionLit
      ((' ' :: mentionLit) ++ (v ++ '"' :: tail)) = some ([' '], v ++ '"' :: tail) := by
    show splitAtSubBy eqCS mentionLit (' ' :: (mentionLit ++ (v ++ '"' :: tail))) = _
    simp only [splitAtSubBy, h0, Bool.false_eq_true, if_false, h1]
    rfl
  unfold parse_mention
  rw [hsplit]
  simp only
  rw [splitAtChar_append _ hv]

theorem digit_not_ws {c : Char} (h : isDigitA c = true) : isWS c = false := by
  simp only [isDigitA, Bool.and_eq_true, decide_eq_true_eq] at h
  simp only [isWS, Bool.or_eq_false_iff, Bool.and_eq_false_iff,
    decide_eq_false_iff_not, beq_eq_false_iff_ne, ne_eq]
  omega

theorem ws_not_digit {c : Char} (h : isWS c = true) : isDigitA c = false := by
  simp only [isWS, Bool.or_eq_true, Bool.and_eq_true, decide_eq_true_eq,
    beq_iff_eq] at h
  simp only [isDigitA, Bool.and_eq_false_iff, decide_eq_false_iff_not]
  omega

theorem dropWhile_append_all {p : Char → Bool} :
    ∀ {a : Str} (b : Str), (∀ c ∈ a, p c = true) →
      (a ++ b).dropWhile p = b.dropWhile p := by
  intro a
  induction a with
  | nil => intro b _; rfl
  | cons x xs ih =>
    intro b h
    have hx : p x = true := h x (List.mem_cons_self x xs)
    simp only [List.cons_append, List.dropWhile_cons, hx, if_true]
    exact ih b (fun c hc => h c (List.mem_cons_of_mem x hc))

theorem takeWhile_append_all {p : Char → Bool} :
    ∀ {a : Str} (b : Str), (∀ c ∈ a, p c = true) →
      (a ++ b).takeWhile p = a ++ b.takeWhile p := by
  intro a
  induction a with
  | nil => intro b _; rfl
  | cons x xs ih =>
    intro b h
    have hx : p x = true := h x (List.mem_cons_self x xs)
    simp only [List.cons_append, List.takeWhile_cons, hx, if_true]
    rw [ih b (fun c hc => h c (List.mem_cons_of_mem x hc))]

theorem dropWhile_head_stop {p : Char → Bool} {b : Str}
    (hb : ∀ c, b.head? = some c → p c = false) : b.dropWhile p = b := by
  cases b with
  | nil => rfl
  | cons x xs => simp [List.dropWhile_cons, hb x rfl]

theorem takeWhile_head_stop {p : Char → Bool} {b : Str}
    (hb : ∀ c, b.head? = some c → p c = false) : b.takeWhile p = [] := by
  cases b with
  | nil => rfl
  | cons x xs => simp [List.takeWhile_cons, hb x rfl]

theorem head_wsdelim_not_digit {w z : Str} {d : Char}
    (hw : ∀ c ∈ w, isWS c = true) (hd : isDigitA d = false) :
    ∀ c, (w ++ d :: z).head? = some c → isDigitA c = false := by
  intro c hc
  cases w with
  | nil =>
    simp only [List.nil_append, List.head?_cons, Option.some_inj] at hc
    rw [← hc]; exact hd
  | cons x xs =>
    simp only [List.cons_append, List.head?_cons, Option.some_inj] at hc
    rw [← hc]
    exact ws_not_digit (hw x (List.mem_cons_self x xs))

theorem matchCoord_mk {w1 d1 w2 w3 d2 w4 : Str} (rest : Str)
    (hw1 : ∀ c ∈ w1, isWS c = true) (hw2 : ∀ c ∈ w2, isWS c = true)
    (hw3 : ∀ c ∈ w3, isWS c = true) (hw4 : ∀ c ∈ w4, isWS c = true)
    (hd1 : d1 ≠ []) (hd1d : ∀ c ∈ d1, isDigitA c = true)
    (hd2 : d2 ≠ []) (hd2d : ∀ c ∈ d2, isDigitA c = true) :
    matchCoord (coordLit w1 d1 w2 w3 d2 w4 ++ rest) = some ((d1, d2), rest) := by
  have hshape : coordLit w1 d1 w2 w3 d2 w4 ++ rest =
      '(' :: (w1 ++ (d1 ++ (w2 ++ ',' :: (w3 ++ (d2 ++ (w4 ++ (')' :: rest))))))) := by
    simp [coordLit]
  have hdig1 : ∀ c, (d1 ++ (w2 ++ ',' :: (w3 ++ (d2 ++ (w4 ++ (')' :: rest)))))).head? =
      some c → isWS c = false := by
    intro c hc
    cases d1 with
    | nil => exact absurd rfl hd1
    | cons x xs =>
      simp only [List.cons_append, List.head?_cons, Option.some_inj] at hc
      rw [← hc]
      exact digit_not_ws (hd1d x (List.mem_cons_self x xs))
  have hdig2 : ∀ c, (d2 ++ (w4 ++ (')' :: rest))).head? = some c → isWS c = false := by
    intro c hc
    cases d2 with
    | nil => exact absurd rfl hd2
    | cons x xs =>
      simp only [List.cons_append, List.head?_cons, Option.some_inj] at hc
      rw [← hc]
      exact digit_not_ws (hd2d x (List.mem_cons_self x xs))
  have e1 : (w1 ++ (d1 ++ (w2 ++ ',' :: (w3 ++ (d2 ++ (w4 ++ (')' :: rest))))))).dropWhile isWS =
      d1 ++ (w2 ++ ',' :: (w3 ++ (d2 ++ (w4 ++ (')' :: rest))))) := by
    rw [dropWhile_append_all _ hw1]
    exact dropWhile_head_stop hdig1
  have e2 : (d1 ++ (w2 ++ ',' :: (w3 ++ (d2 ++ (w4 ++ (')' :: rest)))))).takeWhile isDigitA =
      d1 := by
    rw [takeWhile_append_all _ hd1d,
      takeWhile_head_stop (head_wsdelim_not_digit hw2 (by decide)), List.append_nil]
  have e3 : (d1 ++ (w2 ++ ',' :: (w3 ++ (d2 ++ (w4 ++ (')' :: rest)))))).dropWhile isDigitA =
      w2 ++ ',' :: (w3 ++ (d2 ++ (w4 ++ (')' :: rest)))) := by
    rw [dropWhile_append_all _ hd1d]
    exact dropWhile_head_stop (head_wsdelim_not_digit hw2 (by decide))
  have e4 : (w2 ++ ',' :: (w3 ++ (d2 ++ (w4 ++ (')' :: rest))))).dropWhile isWS =
      ',' :: (w3 ++ (d2 ++ (w4 ++ (')' :: rest)))) := by
    rw [dropWhile_append_all _ hw2]
    have hc : isWS ',' = false := by decide
    simp [List.dropWhile_cons, hc]
  have e5 : (w3 ++ (d2 ++ (w4 ++ (')' :: rest)))).dropWhile isWS =
      d2 ++ (w4 ++ (')' :: rest)) := by
    rw [dropWhile_append_all _ hw3]
    exact dropWhile_head_stop hdig2
  have e6 : (d2 ++ (w4 ++ (')' :: rest))).takeWhile isDigitA = d2 := by
    rw [takeWhile_append_all _ hd2d,
      takeWhile_head_stop (head_wsdelim_not_digit hw4 (by decide)), List.append_nil]
  have e7 : (d2 ++ (w4 ++ (')' :: rest))).dropWhile isDigitA =
      w4 ++ (')' :: rest) := by
    rw [dropWhile_append_all _ hd2d]
    exact dropWhile_head_stop (head_wsdelim_not_digit hw4 (by decide))
  have e8 : (w4 ++ (')' :: rest)).dropWhile isWS = ')' :: rest := by
    rw [dropWhile_append_all _ hw4]
    have hc : isWS ')' = false := by decide
    simp [List.dropWhile_cons, hc]
  have hne1 : d1.isEmpty = false := by
    cases d1 with
    | nil => exact absurd rfl hd1
    | cons x xs => rfl
  have hne2 : d2.isEmpty = false := by
    cases d2 with
    | nil => exact absurd rfl hd2
    | cons x xs => rfl
  rw [hshape]
  simp only [matchCoord, e1, e2, e3, e4, e5, e6, e7, e8, hne1, hne2,
    Bool.false_eq_true, if_false, if_true]

theorem dropWhile_length_le (p : Char → Bool) (l : Str) :
    (l.dropWhile p).length ≤ l.length :=
  (List.dropWhile_suffix p).length_le

theorem matchCoord_length :
    ∀ {s : Str} {p : Str × Str} {rest : Str}, matchCoord s = some (p, rest) →
      rest.length < s.length := by
  intro s p rest h
  cases s with
  | nil => simp [matchCoord] at h
  | cons c r =>
    simp only [matchCoord] at h
    split at h
    · split at h
      · simp at h
      · cases h2 : ((r.dropWhile isWS).dropWhile isDigitA).dropWhile isWS with
        | nil => rw [h2] at h; simp at h
        | cons c2 r3 =>
          rw [h2] at h
          simp only at h
          split at h
          · split at h
            · simp at h
            · cases h5 : ((r3.dropWhile isWS).dropWhile isDigitA).dropWhile isWS with
              | nil => rw [h5] at h; simp at h
              | cons c5 r6 =>
                rw [h5] at h
                simp only at h
                split at h
                · simp only [Option.some_inj, Prod.mk.injEq] at h
                  obtain ⟨-, rfl⟩ := h
                  have a1 : (((r.dropWhile isWS).dropWhile isDigitA).dropWhile
                      isWS).length ≤ r.length :=
                    Nat.le_trans (dropWhile_length_le _ _)
                      (Nat.le_trans (dropWhile_length_le _ _)
                        (dropWhile_length_le _ _))
                  have a2 : (((r3.dropWhile isWS).dropWhile isDigitA).dropWhile
                      isWS).length ≤ r3.length :=
                    Nat.le_trans (dropWhile_length_le _ _)
                      (Nat.le_trans (dropWhile_length_le _ _)
                        (dropWhile_length_le _ _))
                  rw [h2] at a1
                  rw [h5] at a2
                  simp only [List.length_cons] at a1 a2 ⊢
                  omega
                · simp at h
          · simp at h
    · simp at h

theorem scanCoordsAux_fuel :
    ∀ (fa fb : Nat) (s : Str), s.length ≤ fa → s.length ≤ fb →
      scanCoordsAux fa s = scanCoordsAux fb s := by
  intro fa
  induction fa with
  | zero =>
    intro fb s ha _
    have : s = [] := List.eq_nil_of_length_eq_zero (Nat.le_zero.mp ha)
    subst this
    cases fb <;> simp [scanCoordsAux]
  | succ n ih =>
    intro fb s ha hb
    cases s with
    | nil => cases fb <;> simp [scanCoordsAux]
    | cons c cs =>
      cases fb with
      | zero => simp at hb
      | succ m =>
        simp only [scanCoordsAux]
        cases hm : matchCoord (c :: cs) with
        | some t =>
          obtain ⟨p, rest⟩ := t
          have hr := matchCoord_length hm
          simp only [List.length_cons] at ha hb hr
          simp only
          rw [ih m rest (by omega) (by omega)]
        | none =>
          simp only [List.length_cons] at ha hb
          simp only
          rw [ih m cs (by omega) (by omega)]

theorem scanCoords_match {s : Str} {p : Str × Str} {rest : Str}
    (h : matchCoord s = some (p, rest)) :
    scanCoords s = p :: scanCoords rest := by
  cases s with
  | nil => simp [matchCoord] at h
  | cons c cs =>
    have hr := matchCoord_length h
    simp only [List.length_cons] at hr
    show scanCoordsAux (c :: cs).length (c :: cs) = _
    simp only [List.length_cons, scanCoordsAux, h]
    rw [scanCoordsAux_fuel cs.length (List.length rest) rest (by omega) (Nat.le_refl _)]
    rfl

theorem scanCoords_skip {c : Char} {cs : Str}
    (h : matchCoord (c :: cs) = none) :
    scanCoords (c :: cs) = scanCoords cs := by
  show scanCoordsAux (c :: cs).length (c :: cs) = _
  simp only [List.length_cons, scanCoordsAux, h]
  rfl

theorem matchCoord_none {c : Char} {cs : Str} (h : c ≠ '(') :
    matchCoord (c :: cs) = none := by
  simp [matchCoord, h]

theorem startsWithBy_eqByF_take {f : Char → Char → Bool} :
    ∀ {pat s : Str}, startsWithBy f pat s = true →
      eqByF f pat (s.take pat.length) = true := by
  intro pat
  induction pat with
  | nil => intro s _; rfl
  | cons p ps ih =>
    intro s h
    cases s with
    | nil => simp [startsWithBy] at h
    | cons c cs =>
      simp only [startsWithBy, Bool.and_eq_true] at h
      simpa [List.take, eqByF, h.1] using ih h.2

theorem matchTag_span {name s a b rest : Str}
    (h : matchTag name s = some (a, b, rest)) :
    ∃ span, s = span ++ rest ∧ matchTag name span = some (a, b, []) := by
  cases s with
  | nil => simp [matchTag] at h
  | cons c r =>
    simp only [matchTag] at h
    split at h
    · rename_i hlt
      subst hlt
      split at h
      · rename_i hsw
        cases h1 : splitAtChar '>' (r.drop name.length) with
        | none => rw [h1] at h; simp at h
        | some p1 =>
          obtain ⟨attrs, afterGt⟩ := p1
          rw [h1] at h
          simp only at h
          cases h2 : splitAtSubBy eqCI (closeTagOf name) afterGt with
          | none => rw [h2] at h; simp at h
          | some p2 =>
            obtain ⟨body, rest2⟩ := p2
            rw [h2] at h
            simp only [Option.some_inj, Prod.mk.injEq] at h
            obtain ⟨rfl, rfl, rfl⟩ := h
            obtain ⟨hsplit1, hnotin⟩ := splitAtChar_eq_some h1
            obtain ⟨hsub1, hsub2, hsub3⟩ := splitAtSubBy_sound h2
            have hlen : name.length ≤ r.length := by
              have := startsWithBy_length hsw
              omega
            have hopen : eqByF eqCI name (r.take name.length) = true :=
              startsWithBy_eqByF_take hsw
            have hclose : eqByF eqCI (closeTagOf name)
                ((afterGt.drop body.length).take (closeTagOf name).length) = true :=
              startsWithBy_eqByF_take hsub2
            have hearly : ∀ i, i < body.length →
                startsWithBy eqCI (closeTagOf name)
                  ((body ++ (((afterGt.drop body.length).take (closeTagOf name).length) ++ [])).drop i) =
                  false := by
              intro i hi
              cases hb : startsWithBy eqCI (closeTagOf name)
                  ((body ++ (((afterGt.drop body.length).take (closeTagOf name).length) ++ [])).drop i) with
              | false => rfl
              | true =>
                exfalso
                have hgrow := startsWithBy_append rest2 hb
                have hshift : ((body ++ (((afterGt.drop body.length).take (closeTagOf name).length) ++ [])).drop i) ++ rest2 =
                    afterGt.drop i := by
                  have hz : i - body.length = 0 := by omega
                  conv_rhs => rw [hsub1]
                  simp [List.drop_append_eq_append_drop, hz, List.append_assoc]
                rw [hshift] at hgrow
                rw [hsub3 i hi] at hgrow
                cases hgrow
            have hmk := matchTag_mk hopen hnotin hclose hearly
            refine ⟨'<' :: (r.take name.length ++ (attrs ++ '>' :: (body ++
              ((afterGt.drop body.length).take (closeTagOf name).length)))), ?_, ?_⟩
            · have hr : r = r.take name.length ++ r.drop name.length :=
                (List.take_append_drop _ _).symm
              conv_lhs => rw [hr, hsplit1]
              conv_lhs => rw [hsub1]
              simp [List.append_assoc]
            · rw [show '<' :: (r.take name.length ++ (attrs ++ '>' :: (body ++
                  ((afterGt.drop body.length).take (closeTagOf name).length)))) =
                  mkTag (r.take name.length) attrs body
                    (((afterGt.drop body.length).take (closeTagOf name).length) ++ []) from by
                simp [mkTag]]
              exact hmk
      · simp at h
    · simp at h

theorem scanAux_decomp (name : Str) :
    ∀ (fuel : Nat) (s : Str), s.length ≤ fuel →
      ∃ (ps : List (Str × Str)) (tail : Str),
        s = spanJoin ps tail ∧
        (scanAux name fuel s).2 = spanJoin (ps.map (fun p => (p.1, ([] : Str)))) tail ∧
        List.Forall₂ (fun pq m => matchTag name pq.2 = some (m.1, m.2, []))
          ps (scanAux name fuel s).1 := by
  intro fuel
  induction fuel with
  | zero =>
    intro s hs
    have : s = [] := List.eq_nil_of_length_eq_zero (Nat.le_zero.mp hs)
    subst this
    exact ⟨[], [], rfl, rfl, List.Forall₂.nil⟩
  | succ n ih =>
    intro s hs
    cases s with
    | nil => exact ⟨[], [], rfl, rfl, List.Forall₂.nil⟩
    | cons c cs =>
      simp only [List.length_cons] at hs
      cases hm : matchTag name (c :: cs) with
      | some t =>
        obtain ⟨a, b, rest⟩ := t
        have hlt := matchTag_length hm
        simp only [List.length_cons] at hlt
        obtain ⟨span, hspan, hspanMatch⟩ := matchTag_span hm
        obtain ⟨ps, tail, h1, h2, h3⟩ := ih rest (by omega)
        refine ⟨([], span) :: ps, tail, ?_, ?_, ?_⟩
        · simp only [spanJoin, List.nil_append]
          rw [← h1, ← hspan]
        · simp only [scanAux, hm, List.map_cons, spanJoin, List.nil_append]
          exact h2
        · simp only [scanAux, hm]
          exact List.Forall₂.cons hspanMatch h3
      | none =>
        obtain ⟨ps, tail, h1, h2, h3⟩ := ih cs (by omega)
        cases ps with
        | nil =>
          have hnil : (scanAux name n cs).1 = [] := by
            generalize hgen : (scanAux name n cs).1 = l at h3
            cases h3
            rfl
          refine ⟨[], c :: tail, ?_, ?_, ?_⟩
          · simp only [spanJoin] at h1 ⊢
            rw [h1]
          · simp only [scanAux, hm, List.map_nil, spanJoin]
            simp only [spanJoin, List.map_nil] at h2
            rw [h2]
          · simp only [scanAux, hm]
            rw [hnil]
            exact List.Forall₂.nil
        | cons hd ps2 =>
          obtain ⟨pre, span⟩ := hd
          generalize hgen : (scanAux name n cs).1 = l at h3
          cases h3 with
          | cons hrel htail =>
            refine ⟨(c :: pre, span) :: ps2, tail, ?_, ?_, ?_⟩
            · simp only [spanJoin, List.cons_append] at h1 ⊢
              rw [h1]
            · simp only [scanAux, hm, List.map_cons, spanJoin, List.cons_append] at h2 ⊢
              rw [h2]
            · simp only [scanAux, hm]
              rw [hgen]
              exact List.Forall₂.cons hrel htail

theorem startsWithBy_false_at {f : Char → Char → Bool} :
    ∀ (k : Nat) {pat s : Str} {p c : Char}, pat.get? k = some p →
      s.get? k = some c → f p c = false → startsWithBy f pat s = false := by
  intro k
  induction k with
  | zero =>
    intro pat s p c hp hs hf
    cases pat with
    | nil => simp at hp
    | cons p0 ps =>
      cases s with
      | nil => simp at hs
      | cons c0 cs =>
        simp only [List.get?_cons_zero, Option.some_inj] at hp hs
        subst hp
        subst hs
        simp [startsWithBy, hf]
  | succ k ih =>
    intro pat s p c hp hs hf
    cases pat with
    | nil => simp at hp
    | cons p0 ps =>
      cases s with
      | nil => simp at hs
      | cons c0 cs =>
        simp only [List.get?_cons_succ] at hp hs
        simp [startsWithBy, ih hp hs hf]

theorem np_append {pat a a2 b : Str}
    (h1 : ∀ i, i < a.length → startsWithBy eqCI pat ((a.drop i) ++ (a2 ++ b)) = false)
    (h2 : ∀ i, i < a2.length → startsWithBy eqCI pat ((a2.drop i) ++ b) = false) :
    ∀ i, i < (a ++ a2).length →
      startsWithBy eqCI pat (((a ++ a2).drop i) ++ b) = false := by
  intro i hi
  by_cases hc : i < a.length
  · have hd : (a ++ a2).drop i = a.drop i ++ a2 := by
      rw [List.drop_append_eq_append_drop, show i - a.length = 0 from by omega,
        List.drop_zero]
    rw [hd, List.append_assoc]
    exact h1 i hc
  · have hd : (a ++ a2).drop i = a2.drop (i - a.length) := by
      rw [List.drop_append_eq_append_drop,
        List.drop_eq_nil_of_le (by omega), List.nil_append]
    rw [hd]
    apply h2
    simp only [List.length_append] at hi
    omega

theorem np_chars {pat a b : Str} {p0 : Char} (hp : pat.get? 0 = some p0)
    (h : ∀ c ∈ a, eqCI p0 c = false) :
    ∀ i, i < a.length → startsWithBy eqCI pat ((a.drop i) ++ b) = false := by
  intro i hi
  have hd : a.drop i = a[i] :: a.drop (i + 1) := List.drop_eq_getElem_cons hi
  rw [hd, List.cons_append]
  exact startsWithBy_false_at 0 hp rfl (h _ (List.getElem_mem hi))

/-! Claim theorems. -/

set_option maxRecDepth 200000

/-- C1: extract returns nothing exactly when the kind is Text or when no
matched tag of the requested kind yields enough coordinates (the Text kind
gives nothing for every text); a some result always wraps the complete item
list and that list is never empty; and a malformed item is dropped on its
own while the call still succeeds, as the final conjunct shows on a text
whose middle point_box tag has too few coordinates. -/
theorem C1_nothing_iff :
    (∀ text : Str, extract text .Text = none) ∧
    (∀ (text : Str) (format : OutputFormat),
      extract text format = none ↔
        (format = .Text ∨ extractedSize text format = 0)) ∧
    (∀ (text : Str) (format : OutputFormat) (p : Pointing),
      extract text format = some p →
        pointingSize p = extractedSize text format ∧ 0 < pointingSize p) ∧
    extract (("<point_box> (1,2) (3,4) </point_box><point_box> (9,9) " ++
        "</point_box><point_box> (5,6) (7,8) </point_box>").toList) .Box =
      some (.Boxes [⟨1, 2, 3, 4, none⟩, ⟨5, 6, 7, 8, none⟩]) := by
  refine ⟨fun text => rfl, ?_, ?_, by decide⟩
  · intro text format
    cases format with
    | Text => simp [extract, extractedSize]
    | Point =>
      simp only [extract, extractedSize]
      by_cases h : (extract_items text pointTag parse_point).isEmpty = true
      · simp [h, List.isEmpty_iff.mp h]
      · have : extract_items text pointTag parse_point ≠ [] := by
          intro he; exact h (by simp [he])
        simp [h, List.length_eq_zero, this]
    | Box =>
      simp only [extract, extractedSize]
      by_cases h : (extract_items text boxTag parse_box).isEmpty = true
      · simp [h, List.isEmpty_iff.mp h]
      · have : extract_items text boxTag parse_box ≠ [] := by
          intro he; exact h (by simp [he])
        simp [h, List.length_eq_zero, this]
    | Polygon =>
      simp only [extract, extractedSize]
      by_cases h : (extract_items text polygonTag parse_polygon).isEmpty = true
      · simp [h, List.isEmpty_iff.mp h]
      · have : extract_items text polygonTag parse_polygon ≠ [] := by
          intro he; exact h (by simp [he])
        simp [h, List.length_eq_zero, this]
  · intro text format p hp
    cases format with
    | Text => simp [extract] at hp
    | Point =>
      simp only [extract] at hp
      by_cases h : (extract_items text pointTag parse_point).isEmpty = true
      · rw [if_pos h] at hp; cases hp
      · rw [if_neg h] at hp
        cases hp
        have : extract_items text pointTag parse_point ≠ [] := by
          intro he; exact h (by simp [he])
        refine ⟨rfl, ?_⟩
        simpa [pointingSize, Nat.pos_iff_ne_zero, List.length_eq_zero] using this
    | Box =>
      simp only [extract] at hp
      by_cases h : (extract_items text boxTag parse_box).isEmpty = true
      · rw [if_pos h] at hp; cases hp
      · rw [if_neg h] at hp
        cases hp
        have : extract_items text boxTag parse_box ≠ [] := by
          intro he; exact h (by simp [he])
        refine ⟨rfl, ?_⟩
        simpa [pointingSize, Nat.pos_iff_ne_zero, List.length_eq_zero] using this
    | Polygon =>
      simp only [extract] at hp
      by_cases h : (extract_items text polygonTag parse_polygon).isEmpty = true
      · rw [if_pos h] at hp; cases hp
      · rw [if_neg h] at hp
        cases hp
        have : extract_items text polygonTag parse_polygon ≠ [] := by
          intro he; exact h (by simp [he])
        refine ⟨rfl, ?_⟩
        simpa [pointingSize, Nat.pos_iff_ne_zero, List.length_eq_zero] using this

/-- Witness for C1 at the Box kind on a concrete text: a some result whose
size matches the extracted size and is positive. -/
theorem C1_nothing_iff_witness :
    extract ("<point_box> (1,2) (3,4) </point_box>".toList) .Box =
      some (.Boxes [⟨1, 2, 3, 4, none⟩]) ∧
    pointingSize (.Boxes [⟨1, 2, 3, 4, none⟩]) =
      extractedSize ("<point_box> (1,2) (3,4) </point_box>".toList) .Box ∧
    0 < pointingSize (.Boxes [⟨1, 2, 3, 4, none⟩]) := by
  refine ⟨by decide, ?_⟩
  exact C1_nothing_iff.2.2.1 ("<point_box> (1,2) (3,4) </point_box>".toList)
    .Box (.Boxes [⟨1, 2, 3, 4, none⟩]) (by decide)

/-- C2: the kind-specific constructors enforce their minimum coordinate
counts and coordinate usage: a point needs at least one coordinate and uses
only the first; a box needs at least two and uses exactly the first two in
order with the remainder ignored; a polygon needs at least three and uses
all coordinates in order as its hull; an item below its minimum is dropped
while sibling items are kept, as the two concrete conjuncts show. -/
theorem C2_constructors :
    (∀ m : Option Str, parse_point [] m = none) ∧
    (∀ (c : Nat × Nat) (cs : List (Nat × Nat)) (m : Option Str),
      parse_point (c :: cs) m = some ⟨c.1, c.2, m⟩) ∧
    (∀ (coords : List (Nat × Nat)) (m : Option Str), coords.length < 2 →
      parse_box coords m = none) ∧
    (∀ (c1 c2 : Nat × Nat) (cs : List (Nat × Nat)) (m : Option Str),
      parse_box (c1 :: c2 :: cs) m = some ⟨c1.1, c1.2, c2.1, c2.2, m⟩) ∧
    (∀ (coords : List (Nat × Nat)) (m : Option Str), coords.length < 3 →
      parse_polygon coords m = none) ∧
    (∀ (coords : List (Nat × Nat)) (m : Option Str), 3 ≤ coords.length →
      parse_polygon coords m = some ⟨coords, m⟩) ∧
    extract (("<point_box> (9,9) </point_box>" ++
        "<point_box> (1,2) (3,4) (99,99) </point_box>").toList) .Box =
      some (.Boxes [⟨1, 2, 3, 4, none⟩]) ∧
    extract ("<polygon> (1,2) (3,4) </polygon><polygon> (1,2) (3,4) (5,6) </polygon>".toList)
        .Polygon =
      some (.Polygons [⟨[(1, 2), (3, 4), (5, 6)], none⟩]) := by
  refine ⟨fun m => rfl, fun c cs m => rfl, ?_, fun c1 c2 cs m => rfl, ?_, ?_,
    by decide, by decide⟩
  · intro coords m hlen
    match coords, hlen with
    | [], _ => rfl
    | [c1], _ => rfl
    | c1 :: c2 :: cs, h => simp at h; omega
  · intro coords m hlen
    unfold parse_polygon
    rw [if_neg (by omega)]
  · intro coords m hlen
    unfold parse_polygon
    rw [if_pos hlen]

/-- Witness for C2: the minimum-count hypotheses discharged at concrete
coordinate lists. -/
theorem C2_constructors_witness :
    ([(5, 5)] : List (Nat × Nat)).length < 2 ∧
    parse_box [(5, 5)] none = none ∧
    ([(5, 5), (6, 6)] : List (Nat × Nat)).length < 3 ∧
    parse_polygon [(5, 5), (6, 6)] none = none ∧
    3 ≤ ([(1, 1), (2, 2), (3, 3)] : List (Nat × Nat)).length ∧
    parse_polygon [(1, 1), (2, 2), (3, 3)] none =
      some ⟨[(1, 1), (2, 2), (3, 3)], none⟩ :=
  ⟨by decide, C2_constructors.2.2.1 [(5, 5)] none (by decide),
   by decide, C2_constructors.2.2.2.2.1 [(5, 5), (6, 6)] none (by decide),
   by decide, C2_constructors.2.2.2.2.2.1 [(1, 1), (2, 2), (3, 3)] none (by decide)⟩

/-- C9: extract is total and never panics: with the panic sites of the
extraction path made explicit (the unreachable branch of item_regex for the
Text kind and the slice indexing of parse_box), the run always returns ok
with exactly the value of extract, for every text and kind — the Text arm
short-circuits to nothing before item_regex is ever consulted, and the
indexing is guarded by the length check. -/
theorem C9_extract_never_panics :
    ∀ (text : Str) (format : OutputFormat),
      extractE text format = .ok (extract text format) := by
  intro text format
  cases format with
  | Text => rfl
  | Point =>
    have h := extract_itemsE_ok text pointTag parse_pointE parse_point
      (fun _ _ => rfl)
    simp only [extractE, item_tag, exBindOk]
    rw [h, exBindOk]
    rfl
  | Box =>
    have h := extract_itemsE_ok text boxTag parse_boxE parse_box parse_boxE_ok
    simp only [extractE, item_tag, exBindOk]
    rw [h, exBindOk]
    rfl
  | Polygon =>
    have h := extract_itemsE_ok text polygonTag parse_polygonE parse_polygon
      (fun _ _ => rfl)
    simp only [extractE, item_tag, exBindOk]
    rw [h, exBindOk]
    rfl

/-- C3: ordering law — for every text (hence for any physical interleaving
of collection blocks and standalone tags), the extracted item list is the
collection-derived items followed by the standalone items, each group kept
in its source order; the concrete conjunct shows a standalone tag that
physically precedes the collection still listed after the collection item. -/
theorem C3_ordering :
    (∀ (T : Type) (text name : Str)
      (parse_fn : List (Nat × Nat) → Option Str → Option T),
      extract_items text name parse_fn =
        collectionItems text name parse_fn ++ standaloneItems text name parse_fn) ∧
    extract ((" <point_box mention=\"dog\"> (1,2) (3,4) </point_box> " ++
        "<collection mention=\"cat\"> <point_box> (10,20) (30,40) </point_box> " ++
        "</collection> <point_box mention=\"bird\"> (50,60) (70,80) </point_box> ").toList)
        .Box =
      some (.Boxes [⟨10, 20, 30, 40, some ("cat".toList)⟩,
        ⟨1, 2, 3, 4, some ("dog".toList)⟩,
        ⟨50, 60, 70, 80, some ("bird".toList)⟩]) :=
  ⟨fun T text name parse_fn => extract_items_eq text name parse_fn, by decide⟩

/-- C5: when the collection pass of a text matches nothing and the scan for
the requested kind finds exactly one tag whose coordinates and mention build
an annotation, extract returns the single-element list of the corresponding
variant holding exactly that annotation (one conjunct per spatial kind);
the final conjunct is the spec's worked example. -/
theorem C5_single_tag :
    (∀ (text attrs body : Str) (p : Point),
      scanTagsR collectionTag text = ([], text) →
      scanTags pointTag text = [(attrs, body)] →
      parse_point (parse_coords body) (parse_mention attrs) = some p →
      extract text .Point = some (.Points [p])) ∧
    (∀ (text attrs body : Str) (b : BoundingBox),
      scanTagsR collectionTag text = ([], text) →
      scanTags boxTag text = [(attrs, body)] →
      parse_box (parse_coords body) (parse_mention attrs) = some b →
      extract text .Box = some (.Boxes [b])) ∧
    (∀ (text attrs body : Str) (pg : Polygon),
      scanTagsR collectionTag text = ([], text) →
      scanTags polygonTag text = [(attrs, body)] →
      parse_polygon (parse_coords body) (parse_mention attrs) = some pg →
      extract text .Polygon = some (.Polygons [pg])) ∧
    extract ("<point mention=\"target\"> (100,200) </point>".toList) .Point =
      some (.Points [⟨100, 200, some ("target".toList)⟩]) := by
  refine ⟨?_, ?_, ?_, by decide⟩
  · intro text attrs body p h1 h2 h3
    have he : extract_items text pointTag parse_point = [p] := by
      rw [extract_items_eq]
      unfold collectionItems standaloneItems
      rw [h1]
      simp [h2, h3]
    simp [extract, he]
  · intro text attrs body b h1 h2 h3
    have he : extract_items text boxTag parse_box = [b] := by
      rw [extract_items_eq]
      unfold collectionItems standaloneItems
      rw [h1]
      simp [h2, h3]
    simp [extract, he]
  · intro text attrs body pg h1 h2 h3
    have he : extract_items text polygonTag parse_polygon = [pg] := by
      rw [extract_items_eq]
      unfold collectionItems standaloneItems
      rw [h1]
      simp [h2, h3]
    simp [extract, he]

/-- Witness for C5 at the spec's example: its hypotheses hold concretely and
the theorem yields the single-point result. -/
theorem C5_single_tag_witness :
    scanTagsR collectionTag ("<point mention=\"target\"> (100,200) </point>".toList) =
      ([], "<point mention=\"target\"> (100,200) </point>".toList) ∧
    scanTags pointTag ("<point mention=\"target\"> (100,200) </point>".toList) =
      [(" mention=\"target\"".toList, " (100,200) ".toList)] ∧
    parse_point (parse_coords (" (100,200) ".toList))
      (parse_mention (" mention=\"target\"".toList)) =
      some ⟨100, 200, some ("target".toList)⟩ ∧
    extract ("<point mention=\"target\"> (100,200) </point>".toList) .Point =
      some (.Points [⟨100, 200, some ("target".toList)⟩]) :=
  ⟨by decide, by decide, by decide,
   C5_single_tag.1 ("<point mention=\"target\"> (100,200) </point>".toList)
     (" mention=\"target\"".toList) (" (100,200) ".toList)
     ⟨100, 200, some ("target".toList)⟩ (by decide) (by decide) (by decide)⟩

/-- C10: a mention attribute with an empty quoted value yields a present but
empty mention (the general first conjunct instantiated at the empty value,
and the concrete second conjunct), and inside a collection an empty child
mention counts as present, suppressing the parent mention (third conjunct). -/
theorem C10_empty_mention :
    (∀ v tail : Str, '"' ∉ v →
      parse_mention ((' ' :: mentionLit) ++ (v ++ '"' :: tail)) = some v) ∧
    parse_mention (" mention=\"\"".toList) = some [] ∧
    extract (("<collection mention=\"parent\">" ++
        "<point mention=\"\"> (1,2) </point></collection>").toList) .Point =
      some (.Points [⟨1, 2, some []⟩]) :=
  ⟨fun v tail hv => parse_mention_mk hv, by decide, by decide⟩

/-- Witness for C10 at the empty mention value. -/
theorem C10_empty_mention_witness :
    ('"' ∉ ([] : Str)) ∧
    parse_mention ((' ' :: mentionLit) ++ (([] : Str) ++ '"' :: ([] : Str))) =
      some [] :=
  ⟨by decide, C10_empty_mention.1 [] [] (by decide)⟩

/-- C7: tag scanning is case-insensitive on the tag name and non-greedy on
the body.  First conjunct: a text of two adjacent complete same-named tags,
each spelled in arbitrary case, yields two separate matches carrying their
own attribute and body captures, never one merged match.  Second conjunct:
whenever the body splitter succeeds, its cut sits at the first position
where the close pattern matches, so each body ends at the nearest
subsequent close tag of the same name. -/
theorem C7_scanner :
    (∀ (name o1 a1 b1 c1 o2 a2 b2 c2 : Str),
      eqByF eqCI name o1 = true → eqByF eqCI name o2 = true →
      '>' ∉ a1 → '>' ∉ a2 →
      eqByF eqCI (closeTagOf name) c1 = true →
      eqByF eqCI (closeTagOf name) c2 = true →
      (∀ i, i < b1.length → startsWithBy eqCI (closeTagOf name)
        ((b1 ++ (c1 ++ mkTag o2 a2 b2 (c2 ++ []))).drop i) = false) →
      (∀ i, i < b2.length → startsWithBy eqCI (closeTagOf name)
        ((b2 ++ (c2 ++ [])).drop i) = false) →
      scanTags name (mkTag o1 a1 b1 (c1 ++ mkTag o2 a2 b2 (c2 ++ []))) =
        [(a1, b1), (a2, b2)]) ∧
    (∀ (pat s a b : Str), splitAtSubBy eqCI pat s = some (a, b) →
      startsWithBy eqCI pat (s.drop a.length) = true ∧
      (∀ i, i < a.length → startsWithBy eqCI pat (s.drop i) = false)) := by
  constructor
  · intro name o1 a1 b1 c1 o2 a2 b2 c2 ho1 ho2 ha1 ha2 hc1 hc2 he1 he2
    have m2 : matchTag name (mkTag o2 a2 b2 (c2 ++ [])) = some (a2, b2, []) :=
      matchTag_mk ho2 ha2 hc2 he2
    have m1 : matchTag name (mkTag o1 a1 b1 (c1 ++ mkTag o2 a2 b2 (c2 ++ []))) =
        some (a1, b1, mkTag o2 a2 b2 (c2 ++ [])) :=
      matchTag_mk ho1 ha1 hc1 he1
    show (scanTagsR name _).1 = _
    rw [scanTagsR_match m1]
    simp only
    rw [scanTagsR_match m2, scanTagsR_nil]
  · intro pat s a b h
    exact ⟨(splitAtSubBy_sound h).2.1, (splitAtSubBy_sound h).2.2⟩

/-- Witness for C7: two adjacent point tags in mixed case produce two
separate matches, and the splitter's nearest-close property at a concrete
split. -/
theorem C7_scanner_witness :
    scanTags ("point".toList)
      (mkTag ("POINT".toList) (" t=1".toList) ("x".toList)
        ("</POINT>".toList ++ mkTag ("PoInT".toList) [] ("y".toList)
          ("</point>".toList ++ []))) =
      [(" t=1".toList, "x".toList), ([], "y".toList)] ∧
    startsWithBy eqCI ("</point>".toList)
      (("ab</point>cd".toList).drop ("ab".toList).length) = true ∧
    (∀ i, i < ("ab".toList).length →
      startsWithBy eqCI ("</point>".toList) (("ab</point>cd".toList).drop i) = false) := by
  refine ⟨C7_scanner.1 ("point".toList) ("POINT".toList) (" t=1".toList)
    ("x".toList) ("</POINT>".toList) ("PoInT".toList) [] ("y".toList)
    ("</point>".toList) (by decide) (by decide) (by decide) (by decide)
    (by decide) (by decide) (by decide) (by decide), ?_⟩
  have h := C7_scanner.2 ("</point>".toList) ("ab</point>cd".toList)
    ("ab".toList) ("cd".toList) (by decide)
  exact ⟨h.1, h.2⟩

/-- C8: the coordinate parser collects the left-to-right sequence of all
substrings of the literal pair form.  First conjunct: a pair literal at the
head of the text is matched, its two digit runs are captured, and scanning
continues right after it.  Second conjunct: text without any opening
parenthesis contributes no match.  Third conjunct: a matched pair whose
first digit run exceeds the unsigned 32-bit maximum is skipped silently
while the remaining text still parses — other pairs are unaffected and no
error arises; the fourth conjunct shows this concretely. -/
theorem C8_coords :
    (∀ (w1 d1 w2 w3 d2 w4 rest : Str),
      (∀ c ∈ w1, isWS c = true) → (∀ c ∈ w2, isWS c = true) →
      (∀ c ∈ w3, isWS c = true) → (∀ c ∈ w4, isWS c = true) →
      d1 ≠ [] → (∀ c ∈ d1, isDigitA c = true) →
      d2 ≠ [] → (∀ c ∈ d2, isDigitA c = true) →
      scanCoords (coordLit w1 d1 w2 w3 d2 w4 ++ rest) =
        (d1, d2) :: scanCoords rest) ∧
    (∀ junk rest : Str, '(' ∉ junk →
      scanCoords (junk ++ rest) = scanCoords rest) ∧
    (∀ (w1 d1 w2 w3 d2 w4 rest : Str),
      (∀ c ∈ w1, isWS c = true) → (∀ c ∈ w2, isWS c = true) →
      (∀ c ∈ w3, isWS c = true) → (∀ c ∈ w4, isWS c = true) →
      d1 ≠ [] → (∀ c ∈ d1, isDigitA c = true) →
      d2 ≠ [] → (∀ c ∈ d2, isDigitA c = true) →
      4294967296 ≤ digitsVal d1 →
      parse_coords (coordLit w1 d1 w2 w3 d2 w4 ++ rest) = parse_coords rest) ∧
    parse_coords (" (1,2) (4294967296,3) (4,5) ".toList) = [(1, 2), (4, 5)] := by
  have step : ∀ (w1 d1 w2 w3 d2 w4 rest : Str),
      (∀ c ∈ w1, isWS c = true) → (∀ c ∈ w2, isWS c = true) →
      (∀ c ∈ w3, isWS c = true) → (∀ c ∈ w4, isWS c = true) →
      d1 ≠ [] → (∀ c ∈ d1, isDigitA c = true) →
      d2 ≠ [] → (∀ c ∈ d2, isDigitA c = true) →
      scanCoords (coordLit w1 d1 w2 w3 d2 w4 ++ rest) =
        (d1, d2) :: scanCoords rest := by
    intro w1 d1 w2 w3 d2 w4 rest hw1 hw2 hw3 hw4 hd1 hd1d hd2 hd2d
    exact scanCoords_match (matchCoord_mk rest hw1 hw2 hw3 hw4 hd1 hd1d hd2 hd2d)
  refine ⟨step, ?_, ?_, by decide⟩
  · intro junk
    induction junk with
    | nil => intro rest _; rfl
    | cons x xs ih =>
      intro rest h
      simp only [List.mem_cons, not_or] at h
      rw [List.cons_append, scanCoords_skip (matchCoord_none (fun hx => h.1 hx.symm)), ih rest h.2]
  · intro w1 d1 w2 w3 d2 w4 rest hw1 hw2 hw3 hw4 hd1 hd1d hd2 hd2d hover
    unfold parse_coords
    rw [step w1 d1 w2 w3 d2 w4 rest hw1 hw2 hw3 hw4 hd1 hd1d hd2 hd2d]
    have hu : u32ofDigits d1 = none := by
      unfold u32ofDigits
      rw [if_neg (by omega)]
    rw [List.filterMap_cons_none]
    simp only [hu, Option.none_bind]

/-- Witness for C8: the pair-step and junk-skip conjuncts at concrete
strings, and the overflow-skip conjunct at the 2^32 literal. -/
theorem C8_coords_witness :
    scanCoords ((coordLit [' '] ['1'] [] [] ['2', '3'] [' '] ++ "tail(4,5)".toList)) =
      (['1'], ['2', '3']) :: scanCoords ("tail(4,5)".toList) ∧
    scanCoords ("abc".toList ++ "(7,8)".toList) = scanCoords ("(7,8)".toList) ∧
    parse_coords (coordLit [] ("4294967296".toList) [] [] ['3'] [] ++ " (4,5)".toList) =
      parse_coords (" (4,5)".toList) :=
  ⟨C8_coords.1 [' '] ['1'] [] [] ['2', '3'] [' '] ("tail(4,5)".toList)
      (by decide) (by decide) (by decide) (by decide)
      (by decide) (by decide) (by decide) (by decide),
   C8_coords.2.1 ("abc".toList) ("(7,8)".toList) (by decide),
   C8_coords.2.2.1 [] ("4294967296".toList) [] [] ['3'] [] (" (4,5)".toList)
      (by decide) (by decide) (by decide) (by decide)
      (by decide) (by decide) (by decide) (by decide) (by decide)⟩

/-- C6: the residual text of the collection pass is the original text with
exactly the matched collection spans replaced by empty text and every other
character kept in place: every text decomposes into alternating kept pieces
and spans with a final tail, the residual is the same decomposition with
each span replaced by the empty string, and each span is itself a complete
collection match producing exactly the attribute and body captures recorded
by the pass — so the items inside a matched span are gone from the residual
and can never be re-discovered by the standalone pass. -/
theorem C6_residual : ∀ text : Str,
    ∃ (ps : List (Str × Str)) (tail : Str),
      text = spanJoin ps tail ∧
      (scanTagsR collectionTag text).2 =
        spanJoin (ps.map (fun p => (p.1, ([] : Str)))) tail ∧
      List.Forall₂ (fun pq m => matchTag collectionTag pq.2 = some (m.1, m.2, []))
        ps (scanTagsR collectionTag text).1 :=
  fun text => scanAux_decomp collectionTag text.length text (Nat.le_refl _)

/-- C4: mention precedence inside a collection is child mention over parent
mention over absent: in a collection with mention mp holding one child point
with its own mention m1 and one child with no mention attribute, the first
annotation keeps m1 and the second inherits mp — for every choice of the two
mention values (the hypotheses only keep the values free of the delimiter
characters of the grammar); with no mention anywhere the annotation's
mention is absent (second conjunct). -/
theorem C4_mention_precedence (mp m1 : Str)
    (hmp : ∀ c ∈ mp, c ≠ '>' ∧ c ≠ '"')
    (hm1 : ∀ c ∈ m1, eqCI '<' c = false ∧ c ≠ '>' ∧ c ≠ '"') :
    extract (colDemo mp m1) .Point =
      some (.Points [⟨1, 2, some m1⟩, ⟨3, 4, some mp⟩]) ∧
    extract ("<collection><point> (5,6) </point></collection>".toList) .Point =
      some (.Points [⟨5, 6, none⟩]) := by
  refine ⟨?_, by decide⟩
  have hq1 : '"' ∉ m1 := fun hin => (hm1 _ hin).2.2 rfl
  have hqp : '"' ∉ mp := fun hin => (hmp _ hin).2 rfl
  have hnotgt : ∀ (v : Str), (∀ c ∈ v, c ≠ '>') →
      '>' ∉ (' ' :: mentionLit) ++ (v ++ '"' :: ([] : Str)) := by
    intro v hv hmem
    rcases List.mem_append.mp hmem with h | h
    · rcases List.mem_cons.mp h with h | h
      · exact absurd h (by decide)
      · exact absurd h (by decide)
    · rcases List.mem_append.mp h with h | h
      · exact hv _ h rfl
      · rcases List.mem_cons.mp h with h | h
        · exact absurd h (by decide)
        · exact absurd h (List.not_mem_nil _)
  have hattrs1 := hnotgt m1 (fun c hc => (hm1 c hc).2.1)
  have hattrsC := hnotgt mp (fun c hc => (hmp c hc).1)
  have hshapeT1 : colDemoBody m1 =
      mkTag pointTag ((' ' :: mentionLit) ++ (m1 ++ '"' :: ([] : Str)))
        [' ', '(', '1', ',', '2', ')', ' ']
        (closeTagOf pointTag ++
          mkTag pointTag [] [' ', '(', '3', ',', '4', ')', ' ']
            (closeTagOf pointTag)) := by
    simp [colDemoBody, mkTag]
  have hmatch1 : matchTag pointTag (colDemoBody m1) =
      some ((' ' :: mentionLit) ++ (m1 ++ '"' :: ([] : Str)),
        [' ', '(', '1', ',', '2', ')', ' '],
        mkTag pointTag [] [' ', '(', '3', ',', '4', ')', ' ']
          (closeTagOf pointTag)) := by
    rw [hshapeT1]
    exact matchTag_mk (by decide) hattrs1 (by decide) (by decide)
  have hmatch2 : matchTag pointTag
      (mkTag pointTag [] [' ', '(', '3', ',', '4', ')', ' ']
        (closeTagOf pointTag)) =
      some ([], [' ', '(', '3', ',', '4', ')', ' '], []) := by decide
  have hscanPts : scanTags pointTag (colDemoBody m1) =
      [((' ' :: mentionLit) ++ (m1 ++ '"' :: ([] : Str)),
        [' ', '(', '1', ',', '2', ')', ' ']),
       ([], [' ', '(', '3', ',', '4', ')', ' '])] := by
    unfold scanTags
    rw [scanTagsR_match hmatch1, scanTagsR_match hmatch2, scanTagsR_nil]
  have hS1 : ∀ (b : Str), ∀ i,
      i < (['<', 'p', 'o', 'i', 'n', 't', ' ', 'm', 'e', 'n', 't', 'i', 'o',
        'n', '=', '"'] : Str).length →
      startsWithBy eqCI (closeTagOf collectionTag)
        (((['<', 'p', 'o', 'i', 'n', 't', ' ', 'm', 'e', 'n', 't', 'i', 'o',
          'n', '=', '"'] : Str).drop i) ++ b) = false := by
    intro b i hi
    have hi16 : i < 16 := by simpa using hi
    interval_cases i <;>
      first
      | exact startsWithBy_false_at 0 rfl rfl (by decide)
      | exact startsWithBy_false_at 1 rfl rfl (by decide)
  have hS2 : ∀ (b : Str), ∀ i,
      i < (['"', '>', ' ', '(', '1', ',', '2', ')', ' ', '<', '/', 'p', 'o',
        'i', 'n', 't', '>', '<', 'p', 'o', 'i', 'n', 't', '>', ' ', '(', '3',
        ',', '4', ')', ' ', '<', '/', 'p', 'o', 'i', 'n', 't', '>'] : Str).length →
      startsWithBy eqCI (closeTagOf collectionTag)
        (((['"', '>', ' ', '(', '1', ',', '2', ')', ' ', '<', '/', 'p', 'o',
          'i', 'n', 't', '>', '<', 'p', 'o', 'i', 'n', 't', '>', ' ', '(', '3',
          ',', '4', ')', ' ', '<', '/', 'p', 'o', 'i', 'n', 't', '>'] : Str).drop i)
          ++ b) = false := by
    intro b i hi
    have hi39 : i < 39 := by simpa using hi
    interval_cases i <;>
      first
      | exact startsWithBy_false_at 0 rfl rfl (by decide)
      | exact startsWithBy_false_at 1 rfl rfl (by decide)
      | exact startsWithBy_false_at 2 rfl rfl (by decide)
  have hm1NP : ∀ (b : Str), ∀ i, i < m1.length →
      startsWithBy eqCI (closeTagOf collectionTag) ((m1.drop i) ++ b) = false :=
    fun b => np_chars rfl (fun c hc => (hm1 c hc).1)
  have hseg : colDemoBody m1 =
      (['<', 'p', 'o', 'i', 'n', 't', ' ', 'm', 'e', 'n', 't', 'i', 'o',
        'n', '=', '"'] : Str) ++
      (m1 ++ (['"', '>', ' ', '(', '1', ',', '2', ')', ' ', '<', '/', 'p', 'o',
        'i', 'n', 't', '>', '<', 'p', 'o', 'i', 'n', 't', '>', ' ', '(', '3',
        ',', '4', ')', ' ', '<', '/', 'p', 'o', 'i', 'n', 't', '>'] : Str)) := by
    simp [colDemoBody, mkTag, pointTag, mentionLit, closeTagOf]
  have hbody : ∀ i, i < (colDemoBody m1).length →
      startsWithBy eqCI (closeTagOf collectionTag)
        ((colDemoBody m1 ++ (closeTagOf collectionTag ++ [])).drop i) = false := by
    intro i hi
    have hd : (colDemoBody m1 ++ (closeTagOf collectionTag ++ [])).drop i =
        (colDemoBody m1).drop i ++ (closeTagOf collectionTag ++ []) := by
      rw [List.drop_append_eq_append_drop,
        show i - (colDemoBody m1).length = 0 from by omega, List.drop_zero]
    rw [hd, hseg]
    rw [hseg] at hi
    exact np_append (hS1 _) (np_append (hm1NP _) (hS2 _)) i hi
  have hshapeCol : colDemo mp m1 =
      mkTag collectionTag ((' ' :: mentionLit) ++ (mp ++ '"' :: ([] : Str)))
        (colDemoBody m1) (closeTagOf collectionTag ++ []) := by
    simp [colDemo]
  have hmatchCol : matchTag collectionTag (colDemo mp m1) =
      some ((' ' :: mentionLit) ++ (mp ++ '"' :: ([] : Str)),
        colDemoBody m1, []) := by
    rw [hshapeCol]
    exact matchTag_mk (by decide) hattrsC (by decide) hbody
  have hscanCol : scanTagsR collectionTag (colDemo mp m1) =
      ([((' ' :: mentionLit) ++ (mp ++ '"' :: ([] : Str)), colDemoBody m1)],
        []) := by
    rw [scanTagsR_match hmatchCol, scanTagsR_nil]
  have hpm1 : parse_mention ((' ' :: mentionLit) ++ (m1 ++ '"' :: ([] : Str))) =
      some m1 := parse_mention_mk hq1
  have hpmC : parse_mention ((' ' :: mentionLit) ++ (mp ++ '"' :: ([] : Str))) =
      some mp := parse_mention_mk hqp
  have hc1 : parse_coords [' ', '(', '1', ',', '2', ')', ' '] = [(1, 2)] := by
    decide
  have hc2 : parse_coords [' ', '(', '3', ',', '4', ')', ' '] = [(3, 4)] := by
    decide
  have hitems : extract_items (colDemo mp m1) pointTag parse_point =
      [⟨1, 2, some m1⟩, ⟨3, 4, some mp⟩] := by
    rw [extract_items_eq]
    unfold collectionItems standaloneItems
    rw [hscanCol]
    simp only [List.map_cons, List.map_nil]
    rw [hscanPts]
    simp only [List.cons_append, List.nil_append] at hpm1 hpmC ⊢
    have hpmnil : parse_mention [] = none := rfl
    simp [hpm1, hpmC, hpmnil, hc1, hc2, parse_point, Option.or, scanTags,
      scanTagsR_nil]
  simp [extract, hitems]

/-- Witness for C4 at concrete mention values. -/
theorem C4_mention_precedence_witness :
    (∀ c ∈ ("cat".toList : Str), c ≠ '>' ∧ c ≠ '"') ∧
    (∀ c ∈ ("explicit".toList : Str), eqCI '<' c = false ∧ c ≠ '>' ∧ c ≠ '"') ∧
    extract (colDemo ("cat".toList) ("explicit".toList)) .Point =
      some (.Points [⟨1, 2, some ("explicit".toList)⟩,
        ⟨3, 4, some ("cat".toList)⟩]) :=
  ⟨by decide, by decide,
   (C4_mention_precedence ("cat".toList) ("explicit".toList)
     (by decide) (by decide)).1⟩

end PointingSpec
